import Mathlib

/-!
# ghastly: registration and middleware-chain dispatch

Embedding of `function.go`, `handler.go` and the registration surface of
`ghastly.go`.

Go middlewares and handlers are effectful closures.  Their effects are made
explicit:

* the two pieces of mutable state a unit can reach, the request context
  (`*map[string]string`) and the response sink, form a `Store`;
* a handler is its effect on the store;
* a middleware is a `Script`: a finite tree of store effects, observations
  of the store and calls of the continuation `next`.  The interpreter
  `Script.exec` runs it against the closure that `run` builds.

`run` additionally records a ghost `Event` log (which unit was invoked with
which context, when a continuation was entered and left), so that statements
about invocation order can be written down.  The log never influences the
store.
-/

namespace ghastly

/-! ## Data model (`function.go`) -/

/-- The request context `map[string]string`, as an association list. -/
abbrev Context := List (String × String)

/-- Map read `m[k]` with the presence flag. -/
def Context.get (c : Context) (k : String) : Option String :=
  List.lookup k c

/-- Map write `m[k] = v`. -/
def Context.set (c : Context) (k v : String) : Context :=
  (k, v) :: c.filter (fun kv => kv.1 ≠ k)

/-- The response sink `http.ResponseWriter`: status line and body chunks written so far. -/
structure ResponseWriter where
  status : Option Nat
  body : List String
  deriving DecidableEq, Repr

/-- The parsed request `*http.Request` (read-only for the dispatch layer). -/
structure Request where
  Method : String
  Path : String
  Body : String
  deriving DecidableEq, Repr

/-- The mutable state shared along one chain: context and response sink. -/
structure Store where
  context : Context
  responseWriter : ResponseWriter
  deriving DecidableEq, Repr

/-- The unit of a route that gets invoked: `Middlewares[index]` or `Function`. -/
inductive Invoked where
  | middleware (index : Nat)
  | function
  deriving DecidableEq, Repr

/-- Ghost log entries of `run`. -/
inductive Event where
  /-- a unit is invoked; `context` is the map it receives -/
  | invoke (unit : Invoked) (context : Context)
  /-- the continuation built by `run` at `index` is entered -/
  | next (index : Nat) (context : Context)
  /-- the continuation built by `run` at `index` returns -/
  | back (index : Nat)
  deriving DecidableEq, Repr

/-- Result of running (part of) a chain: final store and the events logged. -/
structure Outcome where
  store : Store
  trace : List Event
  deriving DecidableEq, Repr

/-- Behaviour of one middleware invocation: what the body of the Go closure
does with the context, the response sink and `next`.  Being a finite tree, a
script returns and calls `next` finitely often. -/
inductive Script where
  /-- return to the caller -/
  | ret : Script
  /-- mutate context and/or response sink, then go on -/
  | act (f : Store → Store) (rest : Script) : Script
  /-- inspect context and response sink and decide how to go on -/
  | read (choose : Store → Script) : Script
  /-- call the continuation `next()`, then go on -/
  | next (rest : Script) : Script

/-- Interpreter: `Script.exec next s st` runs `s` from `st`, calling `next` at
every `Script.next` node. -/
def Script.exec (next : Store → Outcome) : Script → Store → Outcome
  | .ret, st => ⟨st, []⟩
  | .act f rest, st => Script.exec next rest (f st)
  | .read choose, st => Script.exec next (choose st) st
  | .next rest, st =>
    let r := next st
    let r2 := Script.exec next rest r.store
    ⟨r2.store, r.trace ++ r2.trace⟩

/-- Go type `ApiHandler func(*map[string]string, http.ResponseWriter, *http.Request)`. -/
abbrev ApiHandler := Request → Store → Store

/-- Go type `Middleware func(*map[string]string, http.ResponseWriter, *http.Request, func())`. -/
abbrev Middleware := Request → Script

/-- Address of a `Ghastly` value (the `*Ghastly` back pointer). -/
abbrev GhastlyRef := Nat

/-- Go struct `RegisteredFunction`. -/
structure RegisteredFunction where
  Server : GhastlyRef
  Method : String
  Endpoint : String
  FullPath : String
  Middlewares : List Middleware
  Function : ApiHandler

/-- Go function `run`.  The store is passed in as `responseWriter` and
`context` and comes back in the `Outcome`; the log entries are ghost. -/
def run (function : RegisteredFunction) (responseWriter : ResponseWriter) (request : Request)
    (context : Context) (index : Nat) : Outcome :=
  if h : index < function.Middlewares.length then
    let r := (function.Middlewares[index] request).exec
      (fun st =>
        let r := run function st.responseWriter request st.context (index + 1)
        ⟨r.store, Event.next index st.context :: r.trace ++ [Event.back index]⟩)
      ⟨context, responseWriter⟩
    ⟨r.store, Event.invoke (.middleware index) context :: r.trace⟩
  else
    ⟨function.Function request ⟨context, responseWriter⟩, [Event.invoke .function context]⟩
termination_by function.Middlewares.length - index

/-- Go method `(*RegisteredFunction).ServeHTTP`; `[]` is `map[string]string{}`. -/
def RegisteredFunction.ServeHTTP (function : RegisteredFunction) (responseWriter : ResponseWriter)
    (request : Request) : Outcome :=
  let context : Context := []
  run function responseWriter request context 0

/-- The stores in which a script calls its continuation, one per call, in order. -/
def Script.calls (next : Store → Outcome) : Script → Store → List Store
  | .ret, _ => []
  | .act f rest, st => Script.calls next rest (f st)
  | .read choose, st => Script.calls next (choose st) st
  | .next rest, st => st :: Script.calls next rest (next st).store

/-- A middleware that, serving `request`, calls its continuation zero or one
times per invocation, whatever the store it is invoked in and whatever the
continuation does. -/
def Middleware.atMostOnce (m : Middleware) (request : Request) : Prop :=
  ∀ (next : Store → Outcome) (st : Store), ((m request).calls next st).length ≤ 1

/-- The closure `func() { run(function, responseWriter, request, context, index+1) }`
that `run` hands to `Middlewares[index]`. -/
def continuation (function : RegisteredFunction) (request : Request) (index : Nat) :
    Store → Outcome :=
  fun st =>
    let r := run function st.responseWriter request st.context (index + 1)
    ⟨r.store, Event.next index st.context :: r.trace ++ [Event.back index]⟩

/-- The unit that `run` invokes at `index`: `Middlewares[index]` while
`index < len(Middlewares)`, the handler otherwise. -/
def unitAt (function : RegisteredFunction) (index : Nat) : Invoked :=
  if index < function.Middlewares.length then .middleware index else .function

/-- The units invoked, in order of invocation. -/
def invoked : List Event → List Invoked
  | [] => []
  | .invoke u _ :: t => u :: invoked t
  | _ :: t => invoked t

/-- Deepest nesting of continuation calls reached along a log, starting at depth `d`. -/
def maxDepth : Nat → List Event → Nat
  | d, [] => d
  | d, .next _ _ :: t => max d (maxDepth (d + 1) t)
  | d, .back _ :: t => max d (maxDepth (d - 1) t)
  | d, .invoke _ _ :: t => maxDepth d t

/-- A script whose effects leave key `k` of the context as it is. -/
def Script.keeps (k : String) : Script → Prop
  | .ret => True
  | .act f rest => (∀ st, (f st).context.get k = st.context.get k) ∧ Script.keeps k rest
  | .read choose => ∀ st, Script.keeps k (choose st)
  | .next rest => Script.keeps k rest

/-! ## Sample units -/

/-- A middleware that only calls `next()`. -/
def passMiddleware : Middleware := fun _ => .next .ret

/-- A middleware that returns without calling `next()`. -/
def stopMiddleware : Middleware := fun _ => .ret

/-- A middleware that calls `next()` twice. -/
def twiceMiddleware : Middleware := fun _ => .next (.next .ret)

/-- A middleware that stores `context["user"] = "alice"` and continues. -/
def setUserMiddleware : Middleware := fun _ =>
  .act (fun st => { st with context := st.context.set "user" "alice" }) (.next .ret)

/-- A middleware that continues only when the context holds the key `"authorized"`. -/
def authMiddleware : Middleware := fun _ =>
  .read (fun st => if (st.context.get "authorized").isSome then .next .ret else .ret)

/-- A handler that answers 200 with body `"ok"`. -/
def okHandler : ApiHandler := fun _ st =>
  { st with responseWriter := ⟨some 200, st.responseWriter.body ++ ["ok"]⟩ }

/-- A route `GET /a` with the given middlewares and `okHandler`. -/
def sampleRoute (middlewares : List Middleware) : RegisteredFunction :=
  { Server := 0, Method := "GET", Endpoint := "/a", FullPath := "GET /a",
    Middlewares := middlewares, Function := okHandler }

/-- A blank response sink. -/
def blankWriter : ResponseWriter := ⟨none, []⟩

/-- A request `GET /a`. -/
def sampleRequest : Request := ⟨"GET", "/a", ""⟩

/-! ## Registration (`handler.go`, `ghastly.go`) -/

/-- The method value `registeredFunction.ServeHTTP` handed to the mux: a
callback bound to its receiver. -/
structure HandlerFunc where
  receiver : RegisteredFunction

/-- Calling the bound method value. -/
def HandlerFunc.call (callback : HandlerFunc) (responseWriter : ResponseWriter)
    (request : Request) : Outcome :=
  callback.receiver.ServeHTTP responseWriter request

/-- The external `*http.ServeMux`: some state of type `M` and its
registration operation `HandleFunc(pattern, handler)`.  Both are parameters;
whatever the facility does on a conflicting pattern (it panics in
`net/http`) is part of `handleFunc`. -/
structure ServeMux (M : Type) where
  state : M
  handleFunc : M → String → HandlerFunc → M

/-- One call `mux.HandleFunc(pattern, handler)`. -/
def ServeMux.HandleFunc {M : Type} (mux : ServeMux M) (pattern : String)
    (handler : HandlerFunc) : ServeMux M :=
  { mux with state := mux.handleFunc mux.state pattern handler }

/-- A mux that only records, in order, the registrations it receives, after
the ones in `log`. -/
def recordingMux (log : List (String × HandlerFunc)) : ServeMux (List (String × HandlerFunc)) :=
  { state := log, handleFunc := fun st pattern handler => st ++ [(pattern, handler)] }

/-- Go struct `GhastlyHandler`. -/
structure GhastlyHandler (M : Type) where
  server : GhastlyRef
  mux : ServeMux M

/-- Go function `NewGhastlyHandler`; `newServeMux` is the result of `http.NewServeMux()`. -/
def NewGhastlyHandler {M : Type} (newServeMux : ServeMux M) (server : GhastlyRef) :
    GhastlyHandler M :=
  { server := server, mux := newServeMux }

/-- Go method `(*GhastlyHandler).Request`. -/
def GhastlyHandler.Request {M : Type} (handler : GhastlyHandler M) (method : String)
    (path : String) (middlewares : List Middleware) (function : ApiHandler) :
    GhastlyHandler M :=
  let constructed_path := method ++ " " ++ path
  let constructed_path := if method = "*" then path else constructed_path
  let registeredFunction : RegisteredFunction :=
    { Server := handler.server
      Method := method
      Endpoint := path
      FullPath := constructed_path
      Middlewares := middlewares
      Function := function }
  { handler with mux := handler.mux.HandleFunc constructed_path ⟨registeredFunction⟩ }

/-- Go method `(*GhastlyHandler).Get`. -/
def GhastlyHandler.Get {M : Type} (handler : GhastlyHandler M) (path : String)
    (middlewares : List Middleware) (function : ApiHandler) : GhastlyHandler M :=
  handler.Request "GET" path middlewares function

/-- Go method `(*GhastlyHandler).Head`. -/
def GhastlyHandler.Head {M : Type} (handler : GhastlyHandler M) (path : String)
    (middlewares : List Middleware) (function : ApiHandler) : GhastlyHandler M :=
  handler.Request "HEAD" path middlewares function

/-- Go method `(*GhastlyHandler).Options`. -/
def GhastlyHandler.Options {M : Type} (handler : GhastlyHandler M) (path : String)
    (middlewares : List Middleware) (function : ApiHandler) : GhastlyHandler M :=
  handler.Request "OPTIONS" path middlewares function

/-- Go method `(*GhastlyHandler).PUT`. -/
def GhastlyHandler.PUT {M : Type} (handler : GhastlyHandler M) (path : String)
    (middlewares : List Middleware) (function : ApiHandler) : GhastlyHandler M :=
  handler.Request "PUT" path middlewares function

/-- Go method `(*GhastlyHandler).POST`. -/
def GhastlyHandler.POST {M : Type} (handler : GhastlyHandler M) (path : String)
    (middlewares : List Middleware) (function : ApiHandler) : GhastlyHandler M :=
  handler.Request "POST" path middlewares function

/-- Go method `(*GhastlyHandler).PATCH`. -/
def GhastlyHandler.PATCH {M : Type} (handler : GhastlyHandler M) (path : String)
    (middlewares : List Middleware) (function : ApiHandler) : GhastlyHandler M :=
  handler.Request "PATCH" path middlewares function

/-- Go struct `Server`: the configuration copied into the `http.Server`.  The
fields of pointer, map or function type (`TLSConfig`, `TLSNextProto`,
`ConnState`, `ErrorLog`, `BaseContext`, `ConnContext`) belong to `net/http`
and play no part in registration or dispatch. -/
structure Server where
  Addr : String
  DisableGeneralOptionsHandler : Bool
  ReadTimeout : Int
  ReadHeaderTimeout : Int
  WriteTimeout : Int
  IdleTimeout : Int
  MaxHeaderBytes : Int
  deriving DecidableEq, Repr

/-- Go struct `Ghastly`; `Server` stands for the `*http.Server` built from the
configuration. -/
structure Ghastly (M : Type) where
  Server : Server
  handler : GhastlyHandler M

/-- Go method `(*Ghastly).Request`. -/
def Ghastly.Request {M : Type} (server : Ghastly M) (method : String) (path : String)
    (middlewares : List Middleware) (function : ApiHandler) : Ghastly M :=
  { server with handler := server.handler.Request method path middlewares function }

/-- Go method `(*Ghastly).Get`. -/
def Ghastly.Get {M : Type} (server : Ghastly M) (path : String)
    (middlewares : List Middleware) (function : ApiHandler) : Ghastly M :=
  { server with handler := server.handler.Request "GET" path middlewares function }

/-- Go method `(*Ghastly).Head`. -/
def Ghastly.Head {M : Type} (server : Ghastly M) (path : String)
    (middlewares : List Middleware) (function : ApiHandler) : Ghastly M :=
  { server with handler := server.handler.Request "HEAD" path middlewares function }

/-- Go method `(*Ghastly).Options`. -/
def Ghastly.Options {M : Type} (server : Ghastly M) (path : String)
    (middlewares : List Middleware) (function : ApiHandler) : Ghastly M :=
  { server with handler := server.handler.Request "OPTIONS" path middlewares function }

/-- Go method `(*Ghastly).PUT`. -/
def Ghastly.PUT {M : Type} (server : Ghastly M) (path : String)
    (middlewares : List Middleware) (function : ApiHandler) : Ghastly M :=
  { server with handler := server.handler.Request "PUT" path middlewares function }

/-- Go method `(*Ghastly).POST`. -/
def Ghastly.POST {M : Type} (server : Ghastly M) (path : String)
    (middlewares : List Middleware) (function : ApiHandler) : Ghastly M :=
  { server with handler := server.handler.Request "POST" path middlewares function }

/-- Go method `(*Ghastly).PATCH`. -/
def Ghastly.PATCH {M : Type} (server : Ghastly M) (path : String)
    (middlewares : List Middleware) (function : ApiHandler) : Ghastly M :=
  { server with handler := server.handler.Request "PATCH" path middlewares function }

/-- Go function `NewGhastly`; `self` is the address of the value being built
and `newServeMux` the result of `http.NewServeMux()`. -/
def NewGhastly {M : Type} (newServeMux : ServeMux M) (self : GhastlyRef) (server : Server) :
    Ghastly M :=
  { Server :=
      { Addr := server.Addr
        DisableGeneralOptionsHandler := server.DisableGeneralOptionsHandler
        ReadTimeout := server.ReadTimeout
        ReadHeaderTimeout := server.ReadHeaderTimeout
        WriteTimeout := server.WriteTimeout
        IdleTimeout := server.IdleTimeout
        MaxHeaderBytes := server.MaxHeaderBytes }
    handler := NewGhastlyHandler newServeMux self }


/-! ## Notions used in the statements -/

/-- What one call of the continuation of `index` logs. -/
def segment (function : RegisteredFunction) (request : Request) (index : Nat) (x : Store) :
    List Event :=
  Event.next index x.context ::
    ((run function x.responseWriter request x.context (index + 1)).trace ++ [Event.back index])

/-- Directly after a continuation is entered, the next unit of the chain is invoked. -/
def startsNext (function : RegisteredFunction) (e1 e2 : Event) : Prop :=
  ∀ i c, e1 = Event.next i c → e2 = Event.invoke (unitAt function (i + 1)) c

/-- An event other than the entry of a continuation. -/
def Event.notNext (e : Event) : Prop := ∀ i c, e ≠ Event.next i c

/-! ## Unfolding `run` -/

theorem run_of_lt (function : RegisteredFunction) (responseWriter : ResponseWriter)
    (request : Request) (context : Context) (index : Nat)
    (h : index < function.Middlewares.length) :
    run function responseWriter request context index =
      ⟨((function.Middlewares[index] request).exec (continuation function request index)
          ⟨context, responseWriter⟩).store,
        Event.invoke (.middleware index) context ::
          ((function.Middlewares[index] request).exec (continuation function request index)
            ⟨context, responseWriter⟩).trace⟩ := by
  rw [run]
  simp only [h, dite_true]
  rfl

theorem run_of_ge (function : RegisteredFunction) (responseWriter : ResponseWriter)
    (request : Request) (context : Context) (index : Nat)
    (h : function.Middlewares.length ≤ index) :
    run function responseWriter request context index =
      ⟨function.Function request ⟨context, responseWriter⟩,
        [Event.invoke .function context]⟩ := by
  rw [run]
  simp only [Nat.not_lt.mpr h, dite_false]

/-- The log of a script is the concatenation of the logs of its continuation calls. -/
theorem exec_trace (next : Store → Outcome) (s : Script) (st : Store) :
    (s.exec next st).trace = (s.calls next st).flatMap (fun x => (next x).trace) := by
  induction s generalizing st with
  | ret => simp [Script.exec, Script.calls]
  | act f rest ih => simp [Script.exec, Script.calls, ih]
  | read choose ih => simp [Script.exec, Script.calls, ih]
  | next rest ih => simp [Script.exec, Script.calls, ih]

theorem run_trace_lt (function : RegisteredFunction) (responseWriter : ResponseWriter)
    (request : Request) (context : Context) (index : Nat)
    (h : index < function.Middlewares.length) :
    (run function responseWriter request context index).trace =
      Event.invoke (.middleware index) context ::
        ((function.Middlewares[index] request).calls (continuation function request index)
          ⟨context, responseWriter⟩).flatMap (segment function request index) := by
  rw [run_of_lt _ _ _ _ _ h]
  simp only [exec_trace]
  rfl

theorem run_trace_ge (function : RegisteredFunction) (responseWriter : ResponseWriter)
    (request : Request) (context : Context) (index : Nat)
    (h : function.Middlewares.length ≤ index) :
    (run function responseWriter request context index).trace =
      [Event.invoke .function context] := by
  rw [run_of_ge _ _ _ _ _ h]

/-- Induction from the end of the chain back to its start. -/
theorem downward_induction (n : Nat) (P : Nat → Prop) (hge : ∀ i, n ≤ i → P i)
    (hstep : ∀ i, i < n → P (i + 1) → P i) : ∀ i, P i := by
  intro i
  by_cases hi : n ≤ i
  · exact hge i hi
  · have key : ∀ d i, n - i = d → P i := by
      intro d
      induction d with
      | zero => intro i h; exact hge i (by omega)
      | succ d ih =>
        intro i h
        exact hstep i (by omega) (ih (i + 1) (by omega))
    exact key (n - i) i rfl

/-! ## Shape of the log -/

theorem mem_segment (function : RegisteredFunction) (request : Request) (index : Nat)
    (x : Store) (e : Event) :
    e ∈ segment function request index x ↔
      e = Event.next index x.context ∨
      e ∈ (run function x.responseWriter request x.context (index + 1)).trace ∨
      e = Event.back index := by
  simp [segment]

/-- Membership in the log of `run` below the end of the chain. -/
theorem mem_run_trace_lt (function : RegisteredFunction) (responseWriter : ResponseWriter)
    (request : Request) (context : Context) (index : Nat)
    (h : index < function.Middlewares.length) (e : Event) :
    e ∈ (run function responseWriter request context index).trace ↔
      e = Event.invoke (.middleware index) context ∨
      ∃ x ∈ (function.Middlewares[index] request).calls (continuation function request index)
          ⟨context, responseWriter⟩,
        e = Event.next index x.context ∨
        e ∈ (run function x.responseWriter request x.context (index + 1)).trace ∨
        e = Event.back index := by
  rw [run_trace_lt _ _ _ _ _ h]
  simp [List.mem_flatMap, mem_segment]

/-- A unit is reached only through the continuations of all middlewares
before it: if a unit is invoked while running from `index`, every middleware
`k` from `index` up to that unit had its continuation entered. -/
theorem next_of_invoke (function : RegisteredFunction) (request : Request) :
    ∀ (index : Nat) (responseWriter : ResponseWriter) (context : Context)
      (u : Invoked) (c : Context),
      Event.invoke u c ∈ (run function responseWriter request context index).trace →
      ∀ k, index ≤ k → k < function.Middlewares.length →
        (∀ j, u = Invoked.middleware j → k < j) →
        ∃ c', Event.next k c' ∈ (run function responseWriter request context index).trace := by
  apply downward_induction function.Middlewares.length
  · intro i hi rw ctx u c _ k hk hkn _
    omega
  · intro i hi ih rw ctx u c hmem k hk hkn hu
    rw [mem_run_trace_lt _ _ _ _ _ hi] at hmem
    rcases hmem with hmem | ⟨x, hx, hmem⟩
    · injection hmem with h1 _
      have := hu i h1
      omega
    · rcases hmem with hmem | hmem | hmem
      · cases hmem
      · by_cases hki : k = i
        · subst hki
          exact ⟨x.context, (mem_run_trace_lt _ _ _ _ _ hi _).mpr (Or.inr ⟨x, hx, Or.inl rfl⟩)⟩
        · obtain ⟨c', hc'⟩ := ih x.responseWriter x.context u c hmem k (by omega) hkn hu
          exact ⟨c', (mem_run_trace_lt _ _ _ _ _ hi _).mpr (Or.inr ⟨x, hx, Or.inr (Or.inl hc')⟩)⟩
      · cases hmem

/-- Every index in the log lies between the start index and the length of
the middleware list. -/
theorem index_bounds (function : RegisteredFunction) (request : Request) :
    ∀ (index : Nat) (responseWriter : ResponseWriter) (context : Context) (e : Event),
      e ∈ (run function responseWriter request context index).trace →
      (∀ j c, e = Event.invoke (.middleware j) c →
        index ≤ j ∧ j < function.Middlewares.length) ∧
      (∀ j c, e = Event.next j c → index ≤ j ∧ j < function.Middlewares.length) ∧
      (∀ j, e = Event.back j → index ≤ j ∧ j < function.Middlewares.length) := by
  apply downward_induction function.Middlewares.length
  · intro i hi rw ctx e hmem
    rw [run_trace_ge _ _ _ _ _ hi] at hmem
    simp only [List.mem_singleton] at hmem
    subst hmem
    refine ⟨?_, ?_, ?_⟩ <;> intros <;> simp_all
  · intro i hi ih rw ctx e hmem
    rw [mem_run_trace_lt _ _ _ _ _ hi] at hmem
    rcases hmem with hmem | ⟨x, _, hmem | hmem | hmem⟩
    · subst hmem
      refine ⟨?_, ?_, ?_⟩
      · intro j c h
        injection h with h1 _
        injection h1 with h2
        omega
      · intro j c h; cases h
      · intro j h; cases h
    · subst hmem
      refine ⟨?_, ?_, ?_⟩
      · intro j c h; cases h
      · intro j c h
        injection h with h1 _
        omega
      · intro j h; cases h
    · obtain ⟨h1, h2, h3⟩ := ih x.responseWriter x.context e hmem
      refine ⟨?_, ?_, ?_⟩
      · intro j c h
        have := h1 j c h
        omega
      · intro j c h
        have := h2 j c h
        omega
      · intro j h
        have := h3 j h
        omega
    · subst hmem
      refine ⟨?_, ?_, ?_⟩
      · intro j c h; cases h
      · intro j c h; cases h
      · intro j h
        injection h with h1
        omega

@[simp]
theorem invoked_nil : invoked [] = [] := rfl

@[simp]
theorem invoked_invoke (u : Invoked) (c : Context) (t : List Event) :
    invoked (Event.invoke u c :: t) = u :: invoked t := rfl

@[simp]
theorem invoked_next (i : Nat) (c : Context) (t : List Event) :
    invoked (Event.next i c :: t) = invoked t := rfl

@[simp]
theorem invoked_back (i : Nat) (t : List Event) :
    invoked (Event.back i :: t) = invoked t := rfl

@[simp]
theorem invoked_append (a b : List Event) :
    invoked (a ++ b) = invoked a ++ invoked b := by
  induction a with
  | nil => rfl
  | cons e t ih => cases e <;> simp [ih]

theorem unitAt_of_lt (function : RegisteredFunction) (index : Nat)
    (h : index < function.Middlewares.length) :
    unitAt function index = Invoked.middleware index := by
  simp [unitAt, h]

theorem unitAt_of_ge (function : RegisteredFunction) (index : Nat)
    (h : function.Middlewares.length ≤ index) :
    unitAt function index = Invoked.function := by
  simp [unitAt, Nat.not_lt.mpr h]

/-- With middlewares that call their continuation at most once, running from
`index` invokes the units `index, index+1, ..., k` once each and in this
order, where `k` is the first middleware from `index` on whose continuation is
not entered, or the handler when there is none. -/
theorem chain_run_shape (function : RegisteredFunction) (request : Request)
    (hmw : ∀ m ∈ function.Middlewares, Middleware.atMostOnce m request) :
    ∀ (index : Nat) (responseWriter : ResponseWriter) (context : Context),
      index ≤ function.Middlewares.length →
      ∃ k, index ≤ k ∧ k ≤ function.Middlewares.length ∧
        invoked (run function responseWriter request context index).trace =
          (List.range' index (k + 1 - index)).map (unitAt function) ∧
        (∀ i, index ≤ i → i < k →
          ∃ c, Event.next i c ∈ (run function responseWriter request context index).trace) ∧
        (k < function.Middlewares.length →
          ∀ c, Event.next k c ∉ (run function responseWriter request context index).trace) := by
  apply downward_induction function.Middlewares.length
  · intro i hi rw ctx hle
    have hiN : i = function.Middlewares.length := by omega
    refine ⟨i, le_refl _, hle, ?_, ?_, ?_⟩
    · rw [run_trace_ge _ _ _ _ _ hi]
      simp [unitAt_of_ge function i hi]
    · intro j h1 h2; omega
    · intro h; omega
  · intro i hi ih rw ctx _
    have hlen := hmw _ (List.getElem_mem hi) (continuation function request i) ⟨ctx, rw⟩
    have htr := run_trace_lt function rw request ctx i hi
    match hss : (function.Middlewares[i] request).calls (continuation function request i)
        ⟨ctx, rw⟩ with
    | [] =>
      rw [hss] at htr
      simp only [List.flatMap_nil] at htr
      refine ⟨i, le_refl _, by omega, ?_, ?_, ?_⟩
      · rw [htr]
        simp [unitAt_of_lt function i hi]
      · intro j h1 h2; omega
      · intro _ c hc
        rw [htr] at hc
        simp at hc
    | [x] =>
      rw [hss] at htr
      simp only [List.flatMap_cons, List.flatMap_nil, List.append_nil, segment] at htr
      obtain ⟨k, hk1, hk2, hk3, hk4, hk5⟩ := ih x.responseWriter x.context (by omega)
      refine ⟨k, by omega, hk2, ?_, ?_, ?_⟩
      · rw [htr]
        simp only [invoked_invoke, invoked_next, invoked_append, invoked_back, invoked_nil,
          List.append_nil, hk3]
        have hk : k + 1 - i = (k + 1 - (i + 1)) + 1 := by omega
        rw [hk, List.range'_succ]
        simp [unitAt_of_lt function i hi]
      · intro j h1 h2
        by_cases hji : j = i
        · subst hji
          exact ⟨x.context, by rw [htr]; simp⟩
        · obtain ⟨c, hc⟩ := hk4 j (by omega) h2
          exact ⟨c, by rw [htr]; simp [hc]⟩
      · intro hkN c hc
        rw [htr] at hc
        simp only [List.mem_cons, List.mem_append, List.mem_singleton] at hc
        rcases hc with hc | hc | hc | hc | hc
        · cases hc
        · injection hc with h1 _
          omega
        · exact hk5 hkN c hc
        · cases hc
        · cases hc
    | x :: y :: rest =>
      rw [hss] at hlen
      simp at hlen

theorem map_unitAt_full (function : RegisteredFunction) :
    (List.range (function.Middlewares.length + 1)).map (unitAt function) =
      (List.range function.Middlewares.length).map Invoked.middleware ++ [Invoked.function] := by
  rw [List.range_succ, List.map_append]
  congr 1
  · apply List.map_congr_left
    intro i hi
    exact unitAt_of_lt function i (List.mem_range.mp hi)
  · simp [unitAt_of_ge function _ (le_refl _)]

theorem unitAt_injOn (function : RegisteredFunction) (i j : Nat)
    (hi : i ≤ function.Middlewares.length) (hj : j ≤ function.Middlewares.length)
    (h : unitAt function i = unitAt function j) : i = j := by
  unfold unitAt at h
  by_cases h1 : i < function.Middlewares.length <;>
    by_cases h2 : j < function.Middlewares.length <;>
    simp [h1, h2] at h <;> omega

theorem mem_invoked (u : Invoked) (t : List Event) :
    u ∈ invoked t ↔ ∃ c, Event.invoke u c ∈ t := by
  induction t with
  | nil => simp
  | cons e t ih =>
    cases e with
    | invoke v c =>
      simp only [invoked_invoke, List.mem_cons, ih]
      constructor
      · rintro (h | ⟨c', h⟩)
        · exact ⟨c, Or.inl (by rw [h])⟩
        · exact ⟨c', Or.inr h⟩
      · rintro ⟨c', h | h⟩
        · injection h with h1 _
          exact Or.inl h1
        · exact Or.inr ⟨c', h⟩
    | next i c => simp [ih]
    | back i => simp [ih]

/-- A middleware whose script calls `next()` in every store has its
continuation entered each time it is invoked. -/
theorem next_of_invoke_of_calls (function : RegisteredFunction) (request : Request)
    (hcalls : ∀ m ∈ function.Middlewares, ∀ (next : Store → Outcome) (st : Store),
      (m request).calls next st ≠ []) :
    ∀ (index : Nat) (responseWriter : ResponseWriter) (context : Context) (i : Nat)
      (c : Context),
      Event.invoke (.middleware i) c ∈
        (run function responseWriter request context index).trace →
      ∃ c', Event.next i c' ∈ (run function responseWriter request context index).trace := by
  apply downward_induction function.Middlewares.length
  · intro idx hidx rw ctx i c h
    rw [run_trace_ge _ _ _ _ _ hidx] at h
    simp at h
  · intro idx hidx ih rw ctx i c h
    have h' := (mem_run_trace_lt _ _ _ _ _ hidx _).mp h
    rcases h' with h' | ⟨x, hx, h' | h' | h'⟩
    · injection h' with h1 _
      injection h1 with h2
      subst h2
      have hne := hcalls _ (List.getElem_mem hidx) (continuation function request i) ⟨ctx, rw⟩
      obtain ⟨x, hx⟩ := List.exists_mem_of_ne_nil _ hne
      exact ⟨x.context, (mem_run_trace_lt _ _ _ _ _ hidx _).mpr (Or.inr ⟨x, hx, Or.inl rfl⟩)⟩
    · cases h'
    · obtain ⟨c', hc'⟩ := ih x.responseWriter x.context i c h'
      exact ⟨c', (mem_run_trace_lt _ _ _ _ _ hidx _).mpr
        (Or.inr ⟨x, hx, Or.inr (Or.inl hc')⟩)⟩
    · cases h'

/-! ## The chain executor: claims -/

/-- C2. For a route whose middlewares each call their continuation zero or one
times, one call of `ServeHTTP` invokes `Middlewares[0], ..., Middlewares[N-1]`
and then the handler, in this order and once each, if and only if every
middleware that is invoked has its continuation entered during the call.  In
that case the continuation of every index below `N` is entered; and when the
script of every middleware calls `next()` in every store, the full sequence is
what the call invokes. -/
theorem serve_invokes_all_in_order_iff (function : RegisteredFunction)
    (responseWriter : ResponseWriter) (request : Request)
    (hmw : ∀ m ∈ function.Middlewares, Middleware.atMostOnce m request) :
    (invoked (function.ServeHTTP responseWriter request).trace =
        (List.range function.Middlewares.length).map Invoked.middleware ++ [Invoked.function] ↔
      ∀ i c, i < function.Middlewares.length →
        Event.invoke (.middleware i) c ∈ (function.ServeHTTP responseWriter request).trace →
        ∃ c', Event.next i c' ∈ (function.ServeHTTP responseWriter request).trace) ∧
    (invoked (function.ServeHTTP responseWriter request).trace =
        (List.range function.Middlewares.length).map Invoked.middleware ++ [Invoked.function] →
      ∀ i, i < function.Middlewares.length →
        ∃ c, Event.next i c ∈ (function.ServeHTTP responseWriter request).trace) ∧
    ((∀ m ∈ function.Middlewares, ∀ (next : Store → Outcome) (st : Store),
        (m request).calls next st ≠ []) →
      invoked (function.ServeHTTP responseWriter request).trace =
        (List.range function.Middlewares.length).map Invoked.middleware ++
          [Invoked.function]) := by
  obtain ⟨k, _, hk2, hk3, hk4, hk5⟩ :=
    chain_run_shape function request hmw 0 responseWriter [] (Nat.zero_le _)
  simp only [RegisteredFunction.ServeHTTP]
  have hfull : invoked (run function responseWriter request [] 0).trace =
      (List.range function.Middlewares.length).map Invoked.middleware ++ [Invoked.function] ↔
      k = function.Middlewares.length := by
    rw [← map_unitAt_full, hk3]
    constructor
    · intro h
      have hlen := congrArg List.length h
      simp at hlen
      omega
    · intro h
      rw [h, List.range_eq_range']
      rfl
  have hback : (∀ i c, i < function.Middlewares.length →
      Event.invoke (.middleware i) c ∈ (run function responseWriter request [] 0).trace →
      ∃ c', Event.next i c' ∈ (run function responseWriter request [] 0).trace) →
      k = function.Middlewares.length := by
    intro h
    by_contra hne
    have hk : k < function.Middlewares.length := by omega
    have hmem : Invoked.middleware k ∈
        invoked (run function responseWriter request [] 0).trace := by
      rw [hk3, ← unitAt_of_lt function k hk]
      exact List.mem_map.mpr ⟨k, by simp [List.mem_range'], rfl⟩
    obtain ⟨c, hc⟩ := (mem_invoked _ _).mp hmem
    obtain ⟨c', hc'⟩ := h k c hk hc
    exact hk5 hk c' hc'
  refine ⟨⟨?_, ?_⟩, ?_, ?_⟩
  · intro h i c hi _
    exact hk4 i (Nat.zero_le _) (by have := hfull.mp h; omega)
  · intro h
    exact hfull.mpr (hback h)
  · intro h i hi
    exact hk4 i (Nat.zero_le _) (by have := hfull.mp h; omega)
  · intro hcalls
    apply hfull.mpr
    apply hback
    intro i c _ hc
    exact next_of_invoke_of_calls function request hcalls 0 responseWriter [] i c hc

/-- C3. If the continuation of `Middlewares[k]` is never entered during one
call of `ServeHTTP`, then no middleware after index `k` and not the handler is
invoked during that call; nothing is assumed about the other middlewares. -/
theorem declined_stops_chain (function : RegisteredFunction)
    (responseWriter : ResponseWriter) (request : Request) (k : Nat)
    (hk : k < function.Middlewares.length)
    (hdecline : ∀ c, Event.next k c ∉ (function.ServeHTTP responseWriter request).trace) :
    (∀ j c, k < j →
      Event.invoke (.middleware j) c ∉ (function.ServeHTTP responseWriter request).trace) ∧
    (∀ c, Event.invoke .function c ∉ (function.ServeHTTP responseWriter request).trace) := by
  simp only [RegisteredFunction.ServeHTTP] at hdecline ⊢
  constructor
  · intro j c hj hmem
    obtain ⟨c', hc'⟩ := next_of_invoke function request 0 responseWriter [] _ c hmem k
      (Nat.zero_le _) hk (by
        intro j' h
        injection h with h1
        omega)
    exact hdecline c' hc'
  · intro c hmem
    obtain ⟨c', hc'⟩ := next_of_invoke function request 0 responseWriter [] _ c hmem k
      (Nat.zero_le _) hk (by intro j' h; cases h)
    exact hdecline c' hc'

/-- C4. For a route whose middlewares each call their continuation at most
once per invocation, one call of `ServeHTTP` invokes no unit twice, and the
units invoked are exactly `0, ..., k` in order, where `k` is the first
middleware whose continuation is not entered, or the handler (`k = N`) when
every continuation is entered. -/
theorem serve_invokes_each_once (function : RegisteredFunction)
    (responseWriter : ResponseWriter) (request : Request)
    (hmw : ∀ m ∈ function.Middlewares, Middleware.atMostOnce m request) :
    (invoked (function.ServeHTTP responseWriter request).trace).Nodup ∧
    ∃ k, k ≤ function.Middlewares.length ∧
      invoked (function.ServeHTTP responseWriter request).trace =
        (List.range (k + 1)).map (unitAt function) ∧
      (∀ i, i < k →
        ∃ c, Event.next i c ∈ (function.ServeHTTP responseWriter request).trace) ∧
      (k < function.Middlewares.length →
        ∀ c, Event.next k c ∉ (function.ServeHTTP responseWriter request).trace) := by
  obtain ⟨k, _, hk2, hk3, hk4, hk5⟩ :=
    chain_run_shape function request hmw 0 responseWriter [] (Nat.zero_le _)
  simp only [RegisteredFunction.ServeHTTP]
  have hk3' : invoked (run function responseWriter request [] 0).trace =
      (List.range (k + 1)).map (unitAt function) := by
    rw [hk3, List.range_eq_range']
    rfl
  refine ⟨?_, k, hk2, hk3', fun i hi => hk4 i (Nat.zero_le _) hi, hk5⟩
  rw [hk3']
  apply List.Nodup.map_on _ (List.nodup_range _)
  intro i hi j hj h
  rw [List.mem_range] at hi hj
  exact unitAt_injOn function i j (by omega) (by omega) h

/-! ## Re-entrancy and nesting -/

theorem run_chain (function : RegisteredFunction) (request : Request) :
    ∀ (index : Nat) (responseWriter : ResponseWriter) (context : Context),
      List.Chain' (startsNext function)
          (run function responseWriter request context index).trace ∧
        (run function responseWriter request context index).trace.head? =
          some (Event.invoke (unitAt function index) context) ∧
        ∀ e ∈ (run function responseWriter request context index).trace.getLast?,
          Event.notNext e := by
  apply downward_induction function.Middlewares.length
  · intro i hi rw ctx
    rw [run_trace_ge _ _ _ _ _ hi, unitAt_of_ge _ _ hi]
    refine ⟨List.chain'_singleton _, rfl, ?_⟩
    intro e he
    simp at he
    subst he
    intro j c h
    cases h
  · intro i hi ih rw ctx
    rw [run_trace_lt _ _ _ _ _ hi, unitAt_of_lt _ _ hi]
    generalize (function.Middlewares[i] request).calls (continuation function request i)
      ⟨ctx, rw⟩ = ss
    have hseg : ∀ x : Store, List.Chain' (startsNext function) (segment function request i x) := by
      intro x
      obtain ⟨h1, h2, h3⟩ := ih x.responseWriter x.context
      unfold segment
      rw [List.chain'_cons']
      constructor
      · intro y hy
        rw [List.head?_append_of_ne_nil _ (by intro h; rw [h] at h2; cases h2), h2] at hy
        simp at hy
        subst hy
        intro j c h
        injection h with h1 h2
        subst h1 h2
        rfl
      · rw [List.chain'_append]
        refine ⟨h1, List.chain'_singleton _, ?_⟩
        intro a ha b _ j c h
        exact absurd h (h3 a ha j c)
    have hlast : ∀ x : Store, (segment function request i x).getLast? = some (Event.back i) := by
      intro x
      unfold segment
      rw [← List.cons_append, List.getLast?_append]
      simp
    have hflat : List.Chain' (startsNext function) (ss.flatMap (segment function request i)) ∧
        ∀ e ∈ (ss.flatMap (segment function request i)).getLast?, e = Event.back i := by
      induction ss with
      | nil => simp
      | cons x rest ihs =>
        rw [List.flatMap_cons]
        constructor
        · rw [List.chain'_append]
          refine ⟨hseg x, ihs.1, ?_⟩
          intro a ha b _ j c h
          rw [hlast x] at ha
          simp at ha
          subst ha
          cases h
        · intro e he
          rw [List.getLast?_append] at he
          cases hr : (rest.flatMap (segment function request i)).getLast? with
          | none =>
            rw [hr, hlast x] at he
            simpa using he.symm
          | some b =>
            rw [hr] at he
            simp at he
            subst he
            exact ihs.2 b (by rw [hr]; rfl)
    refine ⟨?_, rfl, ?_⟩
    · rw [List.chain'_cons']
      refine ⟨?_, hflat.1⟩
      intro y _ j c h
      cases h
    · intro e he
      cases hf : ss.flatMap (segment function request i) with
      | nil =>
        rw [hf] at he
        simp at he
        subst he
        intro j c h
        cases h
      | cons a l =>
        rw [hf] at he
        rw [List.getLast?_cons_cons] at he
        have := hflat.2 e (by rw [hf]; exact he)
        subst this
        intro j c h
        cases h

/-- In the log of `run`, every entry of a continuation of index `i` is
followed at once by the invocation of the unit at `i + 1`, with the same
context. -/
theorem next_followed_by_invoke (function : RegisteredFunction) (request : Request)
    (index : Nat) (responseWriter : ResponseWriter) (context : Context)
    (pre post : List Event) (i : Nat) (c : Context)
    (h : (run function responseWriter request context index).trace =
      pre ++ Event.next i c :: post) :
    ∃ post', post = Event.invoke (unitAt function (i + 1)) c :: post' := by
  obtain ⟨h1, _, h3⟩ := run_chain function request index responseWriter context
  rw [h] at h1 h3
  cases post with
  | nil =>
    exact absurd rfl (h3 (Event.next i c) (by simp) i c)
  | cons e post' =>
    rw [List.chain'_split] at h1
    have := h1.2
    rw [List.chain'_cons] at this
    exact ⟨post', by rw [this.1 i c rfl]⟩

@[simp]
theorem maxDepth_nil (d : Nat) : maxDepth d [] = d := rfl

@[simp]
theorem maxDepth_next (d i : Nat) (c : Context) (t : List Event) :
    maxDepth d (Event.next i c :: t) = max d (maxDepth (d + 1) t) := rfl

@[simp]
theorem maxDepth_back (d i : Nat) (t : List Event) :
    maxDepth d (Event.back i :: t) = max d (maxDepth (d - 1) t) := rfl

@[simp]
theorem maxDepth_invoke (d : Nat) (u : Invoked) (c : Context) (t : List Event) :
    maxDepth d (Event.invoke u c :: t) = maxDepth d t := rfl

/-- While running from `index`, the nesting of continuation calls grows by at
most the number of middlewares left, and is back at its start afterwards. -/
theorem maxDepth_run (function : RegisteredFunction) (request : Request) :
    ∀ (index : Nat) (responseWriter : ResponseWriter) (context : Context) (d : Nat)
      (rest : List Event),
      maxDepth d ((run function responseWriter request context index).trace ++ rest) ≤
        max (d + (function.Middlewares.length - index)) (maxDepth d rest) := by
  apply downward_induction function.Middlewares.length
  · intro i hi rw ctx d rest
    rw [run_trace_ge _ _ _ _ _ hi]
    simp only [List.singleton_append, maxDepth_invoke]
    omega
  · intro i hi ih rw ctx d rest
    rw [run_trace_lt _ _ _ _ _ hi]
    generalize (function.Middlewares[i] request).calls (continuation function request i)
      ⟨ctx, rw⟩ = ss
    simp only [List.cons_append, maxDepth_invoke]
    induction ss with
    | nil =>
      simp only [List.flatMap_nil, List.nil_append]
      omega
    | cons x xs ihs =>
      simp only [List.flatMap_cons, segment, List.cons_append, List.append_assoc,
        maxDepth_next, List.nil_append]
      have h1 := ih x.responseWriter x.context (d + 1)
        (Event.back i :: (xs.flatMap (segment function request i) ++ rest))
      simp only [maxDepth_back, Nat.add_sub_cancel] at h1
      omega

/-- C9. The continuation is not one-shot.  With the single middleware
`twiceMiddleware` the handler runs exactly twice in one `ServeHTTP` call; a
middleware that calls `next()` twice, anywhere in a chain, makes `run` execute
the chain from the following index twice, the second time from the store the
first left; and in every log each entry of a continuation of index `i` is
followed at once by the invocation of the unit at `i + 1`. -/
theorem continuation_reenters_chain :
    invoked ((sampleRoute [twiceMiddleware]).ServeHTTP blankWriter sampleRequest).trace =
        [Invoked.middleware 0, Invoked.function, Invoked.function] ∧
    (∀ (function : RegisteredFunction) (pre post : List Middleware)
        (responseWriter : ResponseWriter) (request : Request) (context : Context),
      run { function with Middlewares := pre ++ twiceMiddleware :: post }
          responseWriter request context pre.length =
        ⟨(run { function with Middlewares := pre ++ twiceMiddleware :: post }
            (run { function with Middlewares := pre ++ twiceMiddleware :: post }
              responseWriter request context (pre.length + 1)).store.responseWriter
            request
            (run { function with Middlewares := pre ++ twiceMiddleware :: post }
              responseWriter request context (pre.length + 1)).store.context
            (pre.length + 1)).store,
          Event.invoke (.middleware pre.length) context ::
            Event.next pre.length context ::
            ((run { function with Middlewares := pre ++ twiceMiddleware :: post }
                responseWriter request context (pre.length + 1)).trace ++
              Event.back pre.length ::
              Event.next pre.length
                (run { function with Middlewares := pre ++ twiceMiddleware :: post }
                  responseWriter request context (pre.length + 1)).store.context ::
              ((run { function with Middlewares := pre ++ twiceMiddleware :: post }
                  (run { function with Middlewares := pre ++ twiceMiddleware :: post }
                    responseWriter request context (pre.length + 1)).store.responseWriter
                  request
                  (run { function with Middlewares := pre ++ twiceMiddleware :: post }
                    responseWriter request context (pre.length + 1)).store.context
                  (pre.length + 1)).trace ++
                [Event.back pre.length]))⟩) ∧
    (∀ (function : RegisteredFunction) (responseWriter : ResponseWriter) (request : Request)
        (pre post : List Event) (i : Nat) (c : Context),
      (function.ServeHTTP responseWriter request).trace = pre ++ Event.next i c :: post →
      ∃ post', post = Event.invoke (unitAt function (i + 1)) c :: post') := by
  refine ⟨?_, ?_, ?_⟩
  · simp [RegisteredFunction.ServeHTTP, run_trace_lt, run_trace_ge, sampleRoute, Script.calls,
      twiceMiddleware, segment]
  · intro function pre post rw req ctx
    have hlt : pre.length <
        ({ function with Middlewares := pre ++ twiceMiddleware :: post } :
          RegisteredFunction).Middlewares.length := by
      simp
    rw [run_of_lt _ _ _ _ _ hlt]
    have hget : ({ function with Middlewares := pre ++ twiceMiddleware :: post } :
        RegisteredFunction).Middlewares[pre.length] = twiceMiddleware := by
      show (pre ++ twiceMiddleware :: post)[pre.length] = twiceMiddleware
      rw [List.getElem_append_right (le_refl _)]
      simp
    rw [hget]
    simp [twiceMiddleware, Script.exec, continuation]
  · intro function rw req pre post i c h
    exact next_followed_by_invoke function req 0 rw [] pre post i c h

/-- C10. In one `ServeHTTP` call every middleware index that is used lies
inside the middleware list, every continuation that is entered belongs to an
index inside the list (so `run` is only ever called with an index of at most
`len(Middlewares)`), an empty middleware list leads straight to the handler,
and continuation calls are never nested deeper than `len(Middlewares)`.  `run`
itself is a total function: it returns for every script and handler. -/
theorem run_index_in_bounds (function : RegisteredFunction) (responseWriter : ResponseWriter)
    (request : Request) :
    (∀ i c, Event.invoke (.middleware i) c ∈ (function.ServeHTTP responseWriter request).trace →
      i < function.Middlewares.length) ∧
    (∀ i c, Event.next i c ∈ (function.ServeHTTP responseWriter request).trace →
      i + 1 ≤ function.Middlewares.length) ∧
    (function.Middlewares = [] →
      function.ServeHTTP responseWriter request =
        ⟨function.Function request ⟨[], responseWriter⟩, [Event.invoke .function []]⟩) ∧
    maxDepth 0 (function.ServeHTTP responseWriter request).trace ≤
      function.Middlewares.length := by
  simp only [RegisteredFunction.ServeHTTP]
  refine ⟨?_, ?_, ?_, ?_⟩
  · intro i c h
    exact ((index_bounds function request 0 responseWriter [] _ h).1 i c rfl).2
  · intro i c h
    exact ((index_bounds function request 0 responseWriter [] _ h).2.1 i c rfl).2
  · intro h
    exact run_of_ge function responseWriter request [] 0 (by simp [h])
  · have := maxDepth_run function request 0 responseWriter [] 0 []
    simp only [List.append_nil, maxDepth_nil] at this
    omega

/-! ## The shared context -/

theorem exec_keeps (k : String) (next : Store → Outcome)
    (hnext : ∀ x, (next x).store.context.get k = x.context.get k) (s : Script) :
    s.keeps k → ∀ st,
      (s.exec next st).store.context.get k = st.context.get k ∧
      ∀ x ∈ s.calls next st, x.context.get k = st.context.get k := by
  induction s with
  | ret => intro _ st; simp [Script.exec, Script.calls]
  | act f rest ih =>
    intro hs st
    obtain ⟨h1, h2⟩ := ih hs.2 (f st)
    simp only [Script.exec, Script.calls]
    exact ⟨h1.trans (hs.1 st), fun x hx => (h2 x hx).trans (hs.1 st)⟩
  | read choose ih =>
    intro hs st
    simpa only [Script.exec, Script.calls] using ih st (hs st) st
  | next rest ih =>
    intro hs st
    obtain ⟨h1, h2⟩ := ih hs (next st).store
    simp only [Script.exec, Script.calls, List.mem_cons]
    refine ⟨h1.trans (hnext st), ?_⟩
    rintro x (hx | hx)
    · rw [hx]
    · exact (h2 x hx).trans (hnext st)

/-- When no unit after index `i` writes key `k`, running from an index after
`i` leaves `k` as it is, and every unit invoked on the way receives it so. -/
theorem run_keeps (function : RegisteredFunction) (request : Request) (i : Nat) (k : String)
    (hkeep : ∀ j (h : j < function.Middlewares.length), i < j →
      (function.Middlewares[j] request).keeps k)
    (hfun : ∀ st, (function.Function request st).context.get k = st.context.get k) :
    ∀ index, i < index → ∀ (responseWriter : ResponseWriter) (context : Context),
      (run function responseWriter request context index).store.context.get k =
          context.get k ∧
        ∀ u c, Event.invoke u c ∈ (run function responseWriter request context index).trace →
          c.get k = context.get k := by
  apply downward_induction function.Middlewares.length
  · intro idx hidx _ rw ctx
    rw [run_of_ge _ _ _ _ _ hidx]
    refine ⟨hfun _, ?_⟩
    intro u c h
    simp only [List.mem_singleton] at h
    injection h with _ h2
    rw [h2]
  · intro idx hidx ih hi rw ctx
    have hcont : ∀ x, (continuation function request idx x).store.context.get k =
        x.context.get k := fun x => (ih (by omega) x.responseWriter x.context).1
    obtain ⟨h1, h2⟩ := exec_keeps k _ hcont _ (hkeep idx hidx hi) ⟨ctx, rw⟩
    constructor
    · rw [run_of_lt _ _ _ _ _ hidx]
      exact h1
    · intro u c h
      rw [mem_run_trace_lt _ _ _ _ _ hidx] at h
      rcases h with h | ⟨x, hx, h | h | h⟩
      · injection h with _ h2
        rw [h2]
      · cases h
      · exact ((ih (by omega) x.responseWriter x.context).2 u c h).trans (h2 x hx)
      · cases h

theorem observe_after (function : RegisteredFunction) (request : Request) (i : Nat)
    (k v : String) (hi : i < function.Middlewares.length)
    (hkeep : ∀ j (h : j < function.Middlewares.length), i < j →
      (function.Middlewares[j] request).keeps k)
    (hfun : ∀ st, (function.Function request st).context.get k = st.context.get k) :
    ∀ index, index ≤ i → index < function.Middlewares.length →
      ∀ (responseWriter : ResponseWriter) (context : Context),
      (∀ c, Event.next i c ∈ (run function responseWriter request context index).trace →
        c.get k = some v) →
      ∀ u c, Event.invoke u c ∈ (run function responseWriter request context index).trace →
        (∀ j, u = Invoked.middleware j → i < j) → c.get k = some v := by
  apply downward_induction (i + 1)
  · intro idx h1 h2
    omega
  · intro idx _ ih hidx hlt rw ctx hset u c hmem hu
    have hmem' := (mem_run_trace_lt _ _ _ _ _ hlt _).mp hmem
    rcases hmem' with h | ⟨x, hx, h | h | h⟩
    · injection h with h1 _
      have := hu idx h1
      omega
    · cases h
    · by_cases hii : idx = i
      · subst hii
        have hx' := hset x.context
          ((mem_run_trace_lt _ _ _ _ _ hlt _).mpr (Or.inr ⟨x, hx, Or.inl rfl⟩))
        rw [← hx']
        exact (run_keeps function request idx k hkeep hfun (idx + 1) (by omega)
          x.responseWriter x.context).2 u c h
      · have hlt' : idx + 1 < function.Middlewares.length := by omega
        refine ih (by omega) hlt' x.responseWriter x.context ?_ u c h hu
        intro c' hc'
        exact hset c'
          ((mem_run_trace_lt _ _ _ _ _ hlt _).mpr (Or.inr ⟨x, hx, Or.inr (Or.inl hc')⟩))
    · cases h

/-- C5. One context is threaded through the chain: when `Middlewares[i]` has
`context[k] = v` in place each time it calls its continuation, and no
middleware after `i` nor the handler writes `k`, then every middleware after
`i` and the handler receive a context with `context[k] = v` whenever they are
invoked during the `ServeHTTP` call. -/
theorem context_visible_downstream (function : RegisteredFunction)
    (responseWriter : ResponseWriter) (request : Request) (i : Nat) (k v : String)
    (hi : i < function.Middlewares.length)
    (hset : ∀ c, Event.next i c ∈ (function.ServeHTTP responseWriter request).trace →
      c.get k = some v)
    (hkeep : ∀ j (h : j < function.Middlewares.length), i < j →
      (function.Middlewares[j] request).keeps k)
    (hfun : ∀ st, (function.Function request st).context.get k = st.context.get k) :
    (∀ j c, i < j →
      Event.invoke (.middleware j) c ∈ (function.ServeHTTP responseWriter request).trace →
      c.get k = some v) ∧
    (∀ c, Event.invoke .function c ∈ (function.ServeHTTP responseWriter request).trace →
      c.get k = some v) := by
  simp only [RegisteredFunction.ServeHTTP] at hset ⊢
  have key := observe_after function request i k v hi hkeep hfun 0 (Nat.zero_le _)
    (by omega) responseWriter [] hset
  constructor
  · intro j c hj hmem
    exact key _ c hmem (by
      intro j' h
      injection h with h1
      omega)
  · intro c hmem
    exact key _ c hmem (by intro j' h; cases h)

/-- C6. Every `ServeHTTP` call hands the empty map to the first unit of the
chain (`Middlewares[0]`, or the handler when there is no middleware), also
right after a call on the same route that left `"user"` in its own context;
hence a first middleware that calls `next()` only when the context holds
`"authorized"`, such as `authMiddleware`, returns at once and the handler is
never invoked. -/
theorem fresh_context_per_request :
    (∀ (function : RegisteredFunction) (responseWriter : ResponseWriter) (request : Request),
      (function.ServeHTTP responseWriter request).trace.head? =
        some (Event.invoke (unitAt function 0) [])) ∧
    (((sampleRoute [setUserMiddleware]).ServeHTTP blankWriter sampleRequest).store.context.get
        "user" = some "alice" ∧
      ((sampleRoute [setUserMiddleware]).ServeHTTP
        ((sampleRoute [setUserMiddleware]).ServeHTTP blankWriter
          sampleRequest).store.responseWriter sampleRequest).trace.head? =
        some (Event.invoke (.middleware 0) [])) ∧
    (∀ (m : Middleware),
      (∀ (request : Request) (next : Store → Outcome) (st : Store),
        st.context.get "authorized" = none → (m request).calls next st = []) →
      ∀ (function : RegisteredFunction) (rest : List Middleware)
        (responseWriter : ResponseWriter) (request : Request),
        (({ function with Middlewares := m :: rest } : RegisteredFunction).ServeHTTP
          responseWriter request).trace = [Event.invoke (.middleware 0) []]) ∧
    (∀ (function : RegisteredFunction) (rest : List Middleware)
        (responseWriter : ResponseWriter) (request : Request) (c : Context),
      Event.invoke .function c ∉
        (({ function with Middlewares := authMiddleware :: rest } :
          RegisteredFunction).ServeHTTP responseWriter request).trace) := by
  refine ⟨?_, ⟨?_, ?_⟩, ?_, ?_⟩
  · intro function rw req
    exact (run_chain function req 0 rw []).2.1
  · simp [RegisteredFunction.ServeHTTP, run_of_lt, run_of_ge, sampleRoute, Script.exec,
      setUserMiddleware, continuation, okHandler, Context.set, Context.get, List.lookup]
  · exact (run_chain _ sampleRequest 0 _ []).2.1
  · intro m hm function rest rw req
    simp only [RegisteredFunction.ServeHTTP]
    rw [run_trace_lt _ _ _ _ _ (by simp)]
    simp only [List.getElem_cons_zero]
    rw [hm req (continuation _ req 0) ⟨[], rw⟩ rfl]
    rfl
  · intro function rest rw req c h
    simp only [RegisteredFunction.ServeHTTP] at h
    rw [run_trace_lt _ _ _ _ _ (by simp)] at h
    simp [authMiddleware, Script.calls, Context.get] at h

/-! ## Registration: claims -/

/-- C1. `GhastlyHandler.Request` hands the mux the key `method ++ " " ++ path`,
or `path` itself when `method` is `"*"`, and stores the same string as
`FullPath` of the route it builds; so `("GET", "/a")` is registered under
`"GET /a"` and `("*", "/a")` under `"/a"`. -/
theorem request_composite_key :
    (∀ (log : List (String × HandlerFunc)) (server : GhastlyRef) (method path : String)
        (middlewares : List Middleware) (function : ApiHandler),
      ∃ callback : HandlerFunc,
        ((GhastlyHandler.mk server (recordingMux log)).Request method path middlewares
            function).mux.state =
          log ++ [(if method = "*" then path else method ++ " " ++ path, callback)] ∧
        callback.receiver.FullPath = if method = "*" then path else method ++ " " ++ path) ∧
    (((GhastlyHandler.mk 0 (recordingMux [])).Request "GET" "/a" [] okHandler).mux.state.map
        (fun e => (e.1, e.2.receiver.FullPath)) = [("GET /a", "GET /a")]) ∧
    (((GhastlyHandler.mk 0 (recordingMux [])).Request "*" "/a" [] okHandler).mux.state.map
        (fun e => (e.1, e.2.receiver.FullPath)) = [("/a", "/a")]) := by
  refine ⟨?_, ?_, ?_⟩
  · intro log server method path middlewares function
    exact ⟨_, rfl, rfl⟩
  · decide
  · decide

/-- C7. Every verb shortcut of `Ghastly` and of `GhastlyHandler` yields the
very state that the generic `Request` yields with the fixed method token, and
`Ghastly.Request` is `GhastlyHandler.Request` on its handler. -/
theorem verb_shortcuts_eq_request {M : Type} (server : Ghastly M) (handler : GhastlyHandler M)
    (method path : String) (middlewares : List Middleware) (function : ApiHandler) :
    (handler.Get path middlewares function =
        handler.Request "GET" path middlewares function ∧
      handler.Head path middlewares function =
        handler.Request "HEAD" path middlewares function ∧
      handler.Options path middlewares function =
        handler.Request "OPTIONS" path middlewares function ∧
      handler.PUT path middlewares function =
        handler.Request "PUT" path middlewares function ∧
      handler.POST path middlewares function =
        handler.Request "POST" path middlewares function ∧
      handler.PATCH path middlewares function =
        handler.Request "PATCH" path middlewares function) ∧
    (server.Get path middlewares function =
        server.Request "GET" path middlewares function ∧
      server.Head path middlewares function =
        server.Request "HEAD" path middlewares function ∧
      server.Options path middlewares function =
        server.Request "OPTIONS" path middlewares function ∧
      server.PUT path middlewares function =
        server.Request "PUT" path middlewares function ∧
      server.POST path middlewares function =
        server.Request "POST" path middlewares function ∧
      server.PATCH path middlewares function =
        server.Request "PATCH" path middlewares function) ∧
    (server.Request method path middlewares function).handler =
        server.handler.Request method path middlewares function ∧
    (server.Request method path middlewares function).Server = server.Server :=
  ⟨⟨rfl, rfl, rfl, rfl, rfl, rfl⟩, ⟨rfl, rfl, rfl, rfl, rfl, rfl⟩, rfl, rfl⟩

/-- C8. Whatever the mux and its state, `GhastlyHandler.Request` is one call
of the mux's `HandleFunc` on that state, with the composite key of
`(method, path)` and a callback bound to a route that holds the given method,
path, middlewares and handler; calling the callback runs the chain from index
0 on an empty context; nothing is checked before the call, so a key that is
already registered is forwarded again. -/
theorem request_registers_once {M : Type} (handler : GhastlyHandler M) (method path : String)
    (middlewares : List Middleware) (function : ApiHandler) :
    handler.Request method path middlewares function =
        { server := handler.server,
          mux :=
            { state := handler.mux.handleFunc handler.mux.state
                (if method = "*" then path else method ++ " " ++ path)
                ⟨{ Server := handler.server, Method := method, Endpoint := path,
                   FullPath := if method = "*" then path else method ++ " " ++ path,
                   Middlewares := middlewares, Function := function }⟩,
              handleFunc := handler.mux.handleFunc } } ∧
    (∀ (responseWriter : ResponseWriter) (request : Request),
      HandlerFunc.call
          ⟨{ Server := handler.server, Method := method, Endpoint := path,
             FullPath := if method = "*" then path else method ++ " " ++ path,
             Middlewares := middlewares, Function := function }⟩ responseWriter request =
        run { Server := handler.server, Method := method, Endpoint := path,
              FullPath := if method = "*" then path else method ++ " " ++ path,
              Middlewares := middlewares, Function := function } responseWriter request [] 0) ∧
    (∀ (log : List (String × HandlerFunc)) (server : GhastlyRef),
      ((GhastlyHandler.mk server (recordingMux log)).Request method path middlewares
        function).mux.state.length = log.length + 1) ∧
    ((((GhastlyHandler.mk 0 (recordingMux [])).Request "GET" "/dup" [] okHandler).Request
        "GET" "/dup" [] okHandler).mux.state.map (fun e => e.1) = ["GET /dup", "GET /dup"]) := by
  refine ⟨rfl, fun _ _ => rfl, ?_, by decide⟩
  intro log server
  simp [GhastlyHandler.Request, ServeMux.HandleFunc, recordingMux]

/-! ## Instances -/

/-- Instance of C2: in the chain `[passMiddleware, setUserMiddleware]` both
middlewares call `next()` once, and the call invokes them and then the handler. -/
theorem serve_invokes_all_in_order_iff_witness :
    (∀ m ∈ (sampleRoute [passMiddleware, setUserMiddleware]).Middlewares,
      Middleware.atMostOnce m sampleRequest) ∧
    invoked ((sampleRoute [passMiddleware, setUserMiddleware]).ServeHTTP blankWriter
        sampleRequest).trace =
      [Invoked.middleware 0, Invoked.middleware 1, Invoked.function] ∧
    (∀ i c, i < 2 →
      Event.invoke (.middleware i) c ∈ ((sampleRoute [passMiddleware,
        setUserMiddleware]).ServeHTTP blankWriter sampleRequest).trace →
      ∃ c', Event.next i c' ∈ ((sampleRoute [passMiddleware,
        setUserMiddleware]).ServeHTTP blankWriter sampleRequest).trace) :=
  have h : ∀ m ∈ (sampleRoute [passMiddleware, setUserMiddleware]).Middlewares,
      Middleware.atMostOnce m sampleRequest := by
    simp [sampleRoute, Middleware.atMostOnce, passMiddleware, setUserMiddleware, Script.calls]
  have hc : ∀ m ∈ (sampleRoute [passMiddleware, setUserMiddleware]).Middlewares,
      ∀ (next : Store → Outcome) (st : Store), (m sampleRequest).calls next st ≠ [] := by
    simp [sampleRoute, passMiddleware, setUserMiddleware, Script.calls]
  have hall := (serve_invokes_all_in_order_iff (sampleRoute [passMiddleware,
    setUserMiddleware]) blankWriter sampleRequest h).2.2 hc
  ⟨h, hall, (serve_invokes_all_in_order_iff (sampleRoute [passMiddleware,
    setUserMiddleware]) blankWriter sampleRequest h).1.mp hall⟩

/-- Instance of C3: in `[passMiddleware, stopMiddleware, passMiddleware]` the
middleware at index 1 declines. -/
theorem declined_stops_chain_witness :
    (1 < (sampleRoute [passMiddleware, stopMiddleware, passMiddleware]).Middlewares.length) ∧
    (∀ c, Event.next 1 c ∉ ((sampleRoute [passMiddleware, stopMiddleware,
      passMiddleware]).ServeHTTP blankWriter sampleRequest).trace) ∧
    ((∀ j c, 1 < j →
      Event.invoke (.middleware j) c ∉ ((sampleRoute [passMiddleware, stopMiddleware,
        passMiddleware]).ServeHTTP blankWriter sampleRequest).trace) ∧
    (∀ c, Event.invoke .function c ∉ ((sampleRoute [passMiddleware, stopMiddleware,
        passMiddleware]).ServeHTTP blankWriter sampleRequest).trace)) :=
  have h1 : 1 < (sampleRoute [passMiddleware, stopMiddleware,
      passMiddleware]).Middlewares.length := by decide
  have h2 : ∀ c, Event.next 1 c ∉ ((sampleRoute [passMiddleware, stopMiddleware,
      passMiddleware]).ServeHTTP blankWriter sampleRequest).trace := by
    simp [RegisteredFunction.ServeHTTP, run_trace_lt, sampleRoute, Script.calls,
      passMiddleware, stopMiddleware, segment]
  ⟨h1, h2, declined_stops_chain _ blankWriter sampleRequest 1 h1 h2⟩

/-- Instance of C4: the chain `[passMiddleware, stopMiddleware]`. -/
theorem serve_invokes_each_once_witness :
    (∀ m ∈ (sampleRoute [passMiddleware, stopMiddleware]).Middlewares,
      Middleware.atMostOnce m sampleRequest) ∧
    ((invoked ((sampleRoute [passMiddleware, stopMiddleware]).ServeHTTP blankWriter
        sampleRequest).trace).Nodup ∧
      ∃ k, k ≤ (sampleRoute [passMiddleware, stopMiddleware]).Middlewares.length ∧
        invoked ((sampleRoute [passMiddleware, stopMiddleware]).ServeHTTP blankWriter
          sampleRequest).trace =
          (List.range (k + 1)).map (unitAt (sampleRoute [passMiddleware, stopMiddleware])) ∧
        (∀ i, i < k →
          ∃ c, Event.next i c ∈ ((sampleRoute [passMiddleware, stopMiddleware]).ServeHTTP
            blankWriter sampleRequest).trace) ∧
        (k < (sampleRoute [passMiddleware, stopMiddleware]).Middlewares.length →
          ∀ c, Event.next k c ∉ ((sampleRoute [passMiddleware, stopMiddleware]).ServeHTTP
            blankWriter sampleRequest).trace)) :=
  have h : ∀ m ∈ (sampleRoute [passMiddleware, stopMiddleware]).Middlewares,
      Middleware.atMostOnce m sampleRequest := by
    simp [sampleRoute, Middleware.atMostOnce, passMiddleware, stopMiddleware, Script.calls]
  ⟨h, serve_invokes_each_once _ blankWriter sampleRequest h⟩

/-- Instance of C5: `setUserMiddleware` stores `"user"`, `passMiddleware` and
`okHandler` read `"alice"`. -/
theorem context_visible_downstream_witness :
    (∀ j c, 0 < j →
      Event.invoke (.middleware j) c ∈ ((sampleRoute [setUserMiddleware,
        passMiddleware]).ServeHTTP blankWriter sampleRequest).trace →
      c.get "user" = some "alice") ∧
    (∀ c, Event.invoke .function c ∈ ((sampleRoute [setUserMiddleware,
        passMiddleware]).ServeHTTP blankWriter sampleRequest).trace →
      c.get "user" = some "alice") :=
  context_visible_downstream (sampleRoute [setUserMiddleware, passMiddleware]) blankWriter
    sampleRequest 0 "user" "alice" (by decide)
    (by
      simp [RegisteredFunction.ServeHTTP, run_trace_lt, run_trace_ge, sampleRoute, Script.calls,
        passMiddleware, setUserMiddleware, segment, continuation, run_of_lt, run_of_ge,
        Script.exec, okHandler, Context.set, Context.get, List.lookup])
    (by
      intro j h hj
      have hj1 : j = 1 := by
        simp [sampleRoute] at h
        omega
      subst hj1
      simp [sampleRoute, passMiddleware, Script.keeps])
    (by intro st; rfl)

end ghastly
